import Mathlib

/-!
Verification of the conflict-resolution and execution engine of the
claude-init file-scaffolding installer (src/claude-init.py).

The filesystem is modelled as a map from paths (lists of components) to
optional file records (content plus metadata), together with a set of
directories.  shutil.copy2 copies content and metadata; Path.mkdir with
parents creates a directory and its ancestors; Path.chmod rewrites the
permission mode.  Interactive input (questionary) is modelled by an
explicit aggregate choice value and a stream of per-file yes/no answers;
sys.exit is modelled by an Except error value carrying the exit code.
-/

/-- A filesystem path, as a list of components. -/
abbrev FPath := List String

/-- A file: its byte content together with the metadata that
shutil.copy2 preserves (permission mode and modification time). -/
structure FileRec where
  content : String
  mode : Nat
  mtime : Nat
deriving DecidableEq

/-- Filesystem state: files (path to optional file record) and the set of
existing directories. -/
structure FS where
  files : FPath → Option FileRec
  dirs : FPath → Bool

/-- shutil.copy2 src dest: dest receives the content and metadata of src. -/
def FS.copy2 (fs : FS) (src dest : FPath) : FS :=
  { fs with files := fun p => if p = dest then fs.files src else fs.files p }

/-- Path.mkdir with parents=True, exist_ok=True: the directory and all its
ancestors exist afterwards. -/
def FS.mkdirParents (fs : FS) (path : FPath) : FS :=
  { fs with dirs := fun d => fs.dirs d || d.isPrefixOf path }

/-- Path.chmod: rewrite the permission mode of the file at p. -/
def FS.chmod (fs : FS) (p : FPath) (m : Nat) : FS :=
  { fs with
    files := fun q =>
      if q = p then (fs.files p).map (fun f => { f with mode := m })
      else fs.files q }

/-- dest.name: the final path component. -/
def pathName (p : FPath) : String := p.getLastD ""

/-- dest.parent: the path without its final component. -/
def pathParent (p : FPath) : FPath := p.dropLast

/-- One file operation (dataclass FilePlan in claude-init.py).
conflict is computed at construction as dest.exists() and not always_update;
action starts at pending and is assigned by resolve_conflicts. -/
structure FilePlan where
  src : FPath
  dest : FPath
  label : String
  always_update : Bool := false
  conflict : Bool := false
  action : String := "pending"
deriving DecidableEq

/-- FilePlan.__post_init__: construct a plan against filesystem fs,
deriving the conflict flag from destination existence. -/
def mkFilePlan (fs : FS) (src dest : FPath) (label : String)
    (always_update : Bool) : FilePlan :=
  { src := src, dest := dest, label := label, always_update := always_update,
    conflict := (fs.files dest).isSome && !always_update,
    action := "pending" }

/-- backup_and_copy src dest backup_base: create backup_base (with parents),
copy dest to backup_base/dest.name, then copy src over dest. -/
def backup_and_copy (fs : FS) (src dest backup_base : FPath) : FS :=
  let fs1 := fs.mkdirParents backup_base
  let backup_dest := backup_base ++ [pathName dest]
  let fs2 := fs1.copy2 dest backup_dest
  fs2.copy2 src dest

/-- The aggregate choice offered by the interactive conflict prompt. -/
inductive Choice where
  | overwriteAll
  | skipAll
  | decidePerFile
  | quit
deriving DecidableEq

/-- The per-file loop of the Decide-per-file branch: plans not pending are
left alone; a pending non-conflicting plan becomes install; a pending
conflicting plan is decided by the next answer in the stream ans (the
confirm prompt, consumed in list order, one per pending conflicting plan):
yes gives update, no gives skip. -/
def decideEach (ans : Nat → Bool) (k : Nat) : List FilePlan → List FilePlan
  | [] => []
  | p :: rest =>
    if p.action ≠ "pending" then p :: decideEach ans k rest
    else if !p.conflict then { p with action := "install" } :: decideEach ans k rest
    else { p with action := if ans k then "update" else "skip" }
        :: decideEach ans (k + 1) rest

/-- resolve_conflicts plans force: determine action for every plan.
choice models the aggregate questionary.select answer (none when the prompt
was dismissed without a selection); ans models the stream of per-file
confirm answers.  A Quit or dismissed prompt calls sys.exit(0), modelled as
Except.error 0. -/
def resolve_conflicts (plans : List FilePlan) (force : Bool)
    (choice : Option Choice) (ans : Nat → Bool) :
    Except Nat (List FilePlan) :=
  if (plans.filter (fun p => p.conflict)).isEmpty then
    .ok (plans.map (fun p =>
      if p.action = "pending" then { p with action := "install" } else p))
  else if force then
    .ok (plans.map (fun p =>
      if p.action = "pending" then
        { p with action := if p.conflict then "update" else "install" }
      else p))
  else
    match choice with
    | none => .error 0
    | some .quit => .error 0
    | some .overwriteAll =>
      .ok (plans.map (fun p =>
        if p.action = "pending" then
          { p with action := if p.conflict then "update" else "install" }
        else p))
    | some .skipAll =>
      .ok (plans.map (fun p =>
        if p.action = "pending" then
          { p with action := if p.conflict then "skip" else "install" }
        else p))
    | some .decidePerFile => .ok (decideEach ans 0 plans)

/-- One step of execute_plans for one plan, threading the filesystem and the
(installed, updated, skipped) counters. -/
def execOne (backup_base : FPath) (acc : FS × Nat × Nat × Nat)
    (p : FilePlan) : FS × Nat × Nat × Nat :=
  let (fs, ins, upd, skp) := acc
  if p.always_update then
    let fs1 := ((fs.mkdirParents (pathParent p.dest)).copy2 p.src p.dest).chmod
      p.dest 0o755
    (fs1, ins, upd + 1, skp)
  else if p.action = "install" then
    ((fs.mkdirParents (pathParent p.dest)).copy2 p.src p.dest, ins + 1, upd, skp)
  else if p.action = "update" then
    (backup_and_copy fs p.src p.dest backup_base, ins, upd + 1, skp)
  else if p.action = "skip" then
    (fs, ins, upd, skp + 1)
  else
    (fs, ins, upd, skp)

/-- execute_plans plans backup_base: execute all plans in list order and
return the final filesystem with the (installed, updated, skipped) counts. -/
def execute_plans (plans : List FilePlan) (backup_base : FPath) (fs : FS) :
    FS × Nat × Nat × Nat :=
  plans.foldl (execOne backup_base) (fs, 0, 0, 0)

/-- Number of plans excluding always_update entries. -/
def numNonAlways (plans : List FilePlan) : Nat :=
  (plans.filter (fun p => !p.always_update)).length

/-- Number of always_update entries. -/
def numAlways (plans : List FilePlan) : Nat :=
  (plans.filter (fun p => p.always_update)).length

/-- A plan list is resolved when every plan that is not always_update
carries one of the three final actions. -/
def resolvedPlans (plans : List FilePlan) : Prop :=
  ∀ p ∈ plans, p.always_update = false →
    (p.action = "install" ∨ p.action = "update" ∨ p.action = "skip")

instance (plans : List FilePlan) : Decidable (resolvedPlans plans) := by
  unfold resolvedPlans; infer_instance

/-- The resolve-then-execute pipeline shared by both commands: resolve the
plan actions, then execute; sys.exit during resolution aborts with the exit
code and the untouched filesystem. -/
def runCommand (plans : List FilePlan) (force : Bool) (choice : Option Choice)
    (ans : Nat → Bool) (backup_base : FPath) (fs : FS) :
    Except (Nat × FS) (FS × Nat × Nat × Nat) :=
  match resolve_conflicts plans force choice ans with
  | .error code => .error (code, fs)
  | .ok plans2 => .ok (execute_plans plans2 backup_base fs)

/-! ## The .gitignore append of cmd_init_project

Text is modelled as a list of characters.  The Python substring test
(gi_entry in text) and the append-mode write are translated below. -/

/-- Python substring containment (the in operator on str): pat occurs as a
contiguous run somewhere in s. -/
def strContains (pat : List Char) : List Char → Bool
  | [] => pat.isEmpty
  | c :: t => pat.isPrefixOf (c :: t) || strContains pat t

/-- Number of positions of s at which pat occurs. -/
def countOccs (pat : List Char) : List Char → Nat
  | [] => if pat.isEmpty then 1 else 0
  | c :: t => (if pat.isPrefixOf (c :: t) then 1 else 0) + countOccs pat t

/-- The guard entry written to .gitignore (gi_entry in cmd_init_project). -/
def giEntry : List Char := ".claude/settings.local.json".toList

/-- The text the append writes after the optional separating newline:
the comment line, the entry, and a trailing newline. -/
def giAppendText : List Char :=
  ("# Claude Code — personal settings\n".toList) ++ giEntry ++ ['\n']

/-- gi_has_entry: the file exists and its text contains the entry as a
literal substring. -/
def giHasEntry (gi : Option (List Char)) : Bool :=
  match gi with
  | none => false
  | some t => strContains giEntry t

/-- The unconditional append-mode write: open the file in append mode
(creating it empty when absent), write a newline when the existing size is
positive, then write the comment line and the entry. -/
def gitignoreAppendRaw (gi : Option (List Char)) : List Char :=
  (gi.getD []) ++ (if (gi.getD []).length > 0 then ['\n'] else [])
    ++ giAppendText

/-- The guarded .gitignore step of cmd_init_project: append only when the
entry is not already present. -/
def gitignoreAppendEntry (gi : Option (List Char)) : Option (List Char) :=
  if giHasEntry gi then gi else some (gitignoreAppendRaw gi)

/-- The tail of cmd_init_project after plan construction: resolve, execute,
then perform the guarded .gitignore append and bump the installed counter by
one when the entry was added (gi_has_entry is computed before execution).
Returns the filesystem, the .gitignore content, and the summary counts. -/
def initProjectFinish (plans : List FilePlan) (force : Bool)
    (choice : Option Choice) (ans : Nat → Bool) (backup_base : FPath)
    (fs : FS) (gi : Option (List Char)) :
    Except (Nat × FS) (FS × Option (List Char) × Nat × Nat × Nat) :=
  let giHas := giHasEntry gi
  match resolve_conflicts plans force choice ans with
  | .error code => .error (code, fs)
  | .ok plans2 =>
    let r := execute_plans plans2 backup_base fs
    let gi2 := if giHas then gi else some (gitignoreAppendRaw gi)
    let ins2 := if giHas then r.2.1 else r.2.1 + 1
    .ok (r.1, gi2, ins2, r.2.2.1, r.2.2.2)

/-- The per-plan assignment performed by the force branch of
resolve_conflicts: a pending plan gets update when conflicting and install
otherwise; any other plan is left untouched. -/
def forceMap (p : FilePlan) : FilePlan :=
  if p.action = "pending" then
    { p with action := if p.conflict then "update" else "install" }
  else p

/-! ### Concrete sample data used by the witness theorems -/

/-- A toolkit source file record. -/
def sRec : FileRec := { content := "new content", mode := 0o644, mtime := 100 }

/-- A pre-existing destination file record. -/
def dRec : FileRec := { content := "old content", mode := 0o600, mtime := 50 }

/-- A small concrete filesystem holding one toolkit source file and one
pre-existing destination file. -/
def fsW : FS :=
  { files := fun p =>
      if p = ["tk", "f.md"] then some sRec
      else if p = ["proj", "f.md"] then some dRec
      else none,
    dirs := fun _ => false }

/-- A conflicting plan resolved to update. -/
def pUpd : FilePlan :=
  { src := ["tk", "f.md"], dest := ["proj", "f.md"], label := "f.md",
    always_update := false, conflict := true, action := "update" }

/-- A conflicting plan still pending. -/
def pConf : FilePlan :=
  { src := ["tk", "f.md"], dest := ["proj", "f.md"], label := "f.md",
    always_update := false, conflict := true, action := "pending" }

/-- A non-conflicting plan still pending. -/
def pNew : FilePlan :=
  { src := ["tk", "a.md"], dest := ["proj", "a.md"], label := "a.md",
    always_update := false, conflict := false, action := "pending" }

/-- The self-install plan: always_update, action as resolve leaves it. -/
def pSelf : FilePlan :=
  { src := ["tk", "claude-init.py"], dest := ["home", "bin", "claude-init"],
    label := "~/.claude/bin/claude-init",
    always_update := true, conflict := false, action := "install" }

/-- An empty filesystem. -/
def fs0 : FS := { files := fun _ => none, dirs := fun _ => false }

/-! ## Theorems -/

theorem conflict_false_of_filter_empty {plans : List FilePlan}
    (h : (plans.filter (fun p => p.conflict)).isEmpty = true) :
    ∀ p ∈ plans, p.conflict = false := by
  rw [List.isEmpty_iff, List.filter_eq_nil_iff] at h
  intro p hp
  simpa using h p hp

theorem forceMap_action_ne_pending (p : FilePlan) :
    (forceMap p).action ≠ "pending" := by
  unfold forceMap
  by_cases h : p.action = "pending"
  · simp only [h, if_pos rfl]
    by_cases hc : p.conflict <;> simp [hc]
  · simp [h]

theorem forceMap_idem (p : FilePlan) : forceMap (forceMap p) = forceMap p := by
  have h := forceMap_action_ne_pending p
  conv_lhs => rw [forceMap]
  rw [if_neg h]

/-- C4: resolve with force = true maps every pending conflicting plan to
update and every pending non-conflicting plan to install, touching nothing
else; the result is independent of the interactive inputs (no prompting) and
a second call on the already-forced list returns it unchanged (deterministic
and idempotent). -/
theorem c4_force_deterministic_idempotent (plans : List FilePlan)
    (choice choice2 : Option Choice) (ans ans2 : Nat → Bool) :
    resolve_conflicts plans true choice ans = .ok (plans.map forceMap)
    ∧ resolve_conflicts (plans.map forceMap) true choice2 ans2
        = .ok (plans.map forceMap)
    ∧ ∀ p ∈ plans, p.action = "pending" →
        (p.conflict = true → (forceMap p).action = "update")
        ∧ (p.conflict = false → (forceMap p).action = "install") := by
  have hbranch : ∀ (ps : List FilePlan) (c : Option Choice) (a : Nat → Bool),
      resolve_conflicts ps true c a = .ok (ps.map forceMap) := by
    intro ps c a
    unfold resolve_conflicts
    by_cases h : (ps.filter (fun p => p.conflict)).isEmpty = true
    · rw [if_pos h]
      congr 1
      apply List.map_congr_left
      intro p hp
      have hc : p.conflict = false := conflict_false_of_filter_empty h p hp
      unfold forceMap
      by_cases ha : p.action = "pending" <;> simp [ha, hc]
    · rw [if_neg h]
      rfl
  refine ⟨hbranch plans choice ans, ?_, ?_⟩
  · rw [hbranch (plans.map forceMap) choice2 ans2]
    congr 1
    rw [List.map_map]
    exact List.map_congr_left (fun p _ => forceMap_idem p)
  · intro p _ hp
    constructor
    · intro hc; unfold forceMap; simp [hp, hc]
    · intro hc; unfold forceMap; simp [hp, hc]

theorem decideEach_length (ans : Nat → Bool) :
    ∀ (plans : List FilePlan) (k : Nat),
      (decideEach ans k plans).length = plans.length := by
  intro plans
  induction plans with
  | nil => intro k; rfl
  | cons p rest ih =>
    intro k
    by_cases hp : p.action = "pending" <;> by_cases hc : p.conflict <;>
      simp [decideEach, hp, hc, ih]

theorem decideEach_getElem (ans : Nat → Bool) :
    ∀ (plans : List FilePlan) (k i : Nat) (hi : i < plans.length)
      (hi2 : i < (decideEach ans k plans).length),
      plans[i].action ≠ "pending" → (decideEach ans k plans)[i] = plans[i] := by
  intro plans
  induction plans with
  | nil => intro k i hi; exact absurd hi (by simp)
  | cons p rest ih =>
    intro k i hi hi2 hne
    by_cases hp : p.action = "pending"
    · cases i with
      | zero => exact absurd hp (by simpa using hne)
      | succ j =>
        have hj : j < rest.length := by simpa using hi
        by_cases hc : p.conflict
        · have heq : decideEach ans k (p :: rest)
              = { p with action := if ans k then "update" else "skip" }
                :: decideEach ans (k + 1) rest := by
            simp [decideEach, hp, hc]
          have hj2 : j < (decideEach ans (k + 1) rest).length := by
            rw [decideEach_length]; exact hj
          rw [List.getElem_cons_succ]
          have := ih (k + 1) j hj hj2 (by simpa using hne)
          simp only [heq, List.getElem_cons_succ]
          exact this
        · have heq : decideEach ans k (p :: rest)
              = { p with action := "install" } :: decideEach ans k rest := by
            simp [decideEach, hp, hc]
          have hj2 : j < (decideEach ans k rest).length := by
            rw [decideEach_length]; exact hj
          rw [List.getElem_cons_succ]
          have := ih k j hj hj2 (by simpa using hne)
          simp only [heq, List.getElem_cons_succ]
          exact this
    · have heq : decideEach ans k (p :: rest) = p :: decideEach ans k rest := by
        simp [decideEach, hp]
      cases i with
      | zero => simp [heq]
      | succ j =>
        have hj : j < rest.length := by simpa using hi
        have hj2 : j < (decideEach ans k rest).length := by
          rw [decideEach_length]; exact hj
        rw [List.getElem_cons_succ]
        have := ih k j hj hj2 (by simpa using hne)
        simp only [heq, List.getElem_cons_succ]
        exact this

/-- C7: in every branch of resolve_conflicts that completes, a plan that
already carried a non-pending action before the call is returned untouched
at its position: the engine only ever assigns to plans still pending. -/
theorem c7_resolve_assigns_only_pending (plans : List FilePlan) (force : Bool)
    (choice : Option Choice) (ans : Nat → Bool) (out : List FilePlan)
    (h : resolve_conflicts plans force choice ans = .ok out) :
    out.length = plans.length ∧
    ∀ i (hi : i < plans.length) (hi2 : i < out.length),
      plans[i].action ≠ "pending" → out[i] = plans[i] := by
  have hmap : ∀ (f : FilePlan → FilePlan),
      (∀ p, p.action ≠ "pending" → f p = p) →
      Except.ok (ε := Nat) (List.map f plans) = Except.ok out →
      out.length = plans.length ∧
      ∀ i (hi : i < plans.length) (hi2 : i < out.length),
        plans[i].action ≠ "pending" → out[i] = plans[i] := by
    intro f hf heq
    injection heq with heq
    subst heq
    refine ⟨by simp, ?_⟩
    intro i hi hi2 hne
    rw [List.getElem_map]
    exact hf _ hne
  unfold resolve_conflicts at h
  split at h
  · exact hmap _ (fun p hp => if_neg hp) h
  · split at h
    · exact hmap _ (fun p hp => if_neg hp) h
    · split at h
      · exact Except.noConfusion h
      · exact Except.noConfusion h
      · exact hmap _ (fun p hp => if_neg hp) h
      · exact hmap _ (fun p hp => if_neg hp) h
      · injection h with h
        subst h
        refine ⟨decideEach_length ans plans 0, ?_⟩
        intro i hi hi2 hne
        exact decideEach_getElem ans plans 0 i hi hi2 hne

/-- Witness for C7: a plan already resolved to install is returned unchanged
by an interactive resolution that hits the no-conflict branch. -/
theorem c7_witness :
    ([pUpd] : List FilePlan).length = ([pUpd] : List FilePlan).length ∧
    ∀ i (hi : i < ([pUpd] : List FilePlan).length)
      (hi2 : i < ([pUpd] : List FilePlan).length),
      ([pUpd] : List FilePlan)[i].action ≠ "pending" →
      ([pUpd] : List FilePlan)[i] = ([pUpd] : List FilePlan)[i] :=
  c7_resolve_assigns_only_pending [pUpd] false (some .overwriteAll)
    (fun _ => false) [pUpd] (by rfl)

/-- Every element produced by the per-file loop from all-pending input
carries a final action consistent with its conflict flag. -/
theorem decideEach_mem_invariant (ans : Nat → Bool) :
    ∀ (plans : List FilePlan) (k : Nat),
      (∀ p ∈ plans, p.action = "pending") →
      ∀ q ∈ decideEach ans k plans,
        (q.action = "install" ∧ q.conflict = false)
        ∨ (q.action = "update" ∧ q.conflict = true)
        ∨ (q.action = "skip" ∧ q.conflict = true) := by
  intro plans
  induction plans with
  | nil => intro k _ q hq; exact absurd hq (by simp [decideEach])
  | cons p rest ih =>
    intro k hpend q hq
    have hp : p.action = "pending" := hpend p (by simp)
    by_cases hc : p.conflict
    · rw [show decideEach ans k (p :: rest)
          = { p with action := if ans k then "update" else "skip" }
            :: decideEach ans (k + 1) rest by simp [decideEach, hp, hc]] at hq
      rcases List.mem_cons.mp hq with hq | hq
      · subst hq
        by_cases ha : ans k
        · exact Or.inr (Or.inl (by simp [ha, hc]))
        · exact Or.inr (Or.inr (by simp [ha, hc]))
      · exact ih (k + 1) (fun r hr => hpend r (by simp [hr])) q hq
    · rw [show decideEach ans k (p :: rest)
          = { p with action := "install" } :: decideEach ans k rest by
            simp [decideEach, hp, hc]] at hq
      rcases List.mem_cons.mp hq with hq | hq
      · subst hq
        exact Or.inl (by simpa using hc)
      · exact ih k (fun r hr => hpend r (by simp [hr])) q hq

/-- C2: starting from an all-pending plan list, whenever resolve_conflicts
completes (the user did not quit), every returned plan with
always_update = false carries install, update or skip — never pending — and
install entails no conflict while update and skip each entail a conflict. -/
theorem c2_resolution_invariant (plans : List FilePlan) (force : Bool)
    (choice : Option Choice) (ans : Nat → Bool) (out : List FilePlan)
    (hpend : ∀ p ∈ plans, p.action = "pending")
    (h : resolve_conflicts plans force choice ans = .ok out) :
    ∀ q ∈ out, q.always_update = false →
      (q.action = "install" ∧ q.conflict = false)
      ∨ (q.action = "update" ∧ q.conflict = true)
      ∨ (q.action = "skip" ∧ q.conflict = true) := by
  unfold resolve_conflicts at h
  split at h
  · next hempty =>
    injection h with h
    subst h
    intro q hq _
    rcases List.mem_map.mp hq with ⟨p, hp, rfl⟩
    have hc : p.conflict = false := conflict_false_of_filter_empty hempty p hp
    exact Or.inl (by simp [hpend p hp, hc])
  · split at h
    · injection h with h
      subst h
      intro q hq _
      rcases List.mem_map.mp hq with ⟨p, hp, rfl⟩
      by_cases hc : p.conflict
      · exact Or.inr (Or.inl (by simp [hpend p hp, hc]))
      · exact Or.inl (by simp [hpend p hp, hc])
    · split at h
      · exact Except.noConfusion h
      · exact Except.noConfusion h
      · injection h with h
        subst h
        intro q hq _
        rcases List.mem_map.mp hq with ⟨p, hp, rfl⟩
        by_cases hc : p.conflict
        · exact Or.inr (Or.inl (by simp [hpend p hp, hc]))
        · exact Or.inl (by simp [hpend p hp, hc])
      · injection h with h
        subst h
        intro q hq _
        rcases List.mem_map.mp hq with ⟨p, hp, rfl⟩
        by_cases hc : p.conflict
        · exact Or.inr (Or.inr (by simp [hpend p hp, hc]))
        · exact Or.inl (by simp [hpend p hp, hc])
      · injection h with h
        subst h
        intro q hq _
        exact decideEach_mem_invariant ans plans 0 hpend q hq

/-- Witness for C2: resolving a concrete pending conflicting plan through
the Overwrite-all choice yields an updated plan satisfying the invariant. -/
theorem c2_witness :
    ({ pConf with action := "update" }.action = "install"
      ∧ { pConf with action := "update" }.conflict = false)
    ∨ ({ pConf with action := "update" }.action = "update"
      ∧ { pConf with action := "update" }.conflict = true)
    ∨ ({ pConf with action := "update" }.action = "skip"
      ∧ { pConf with action := "update" }.conflict = true) :=
  c2_resolution_invariant [pConf] false (some .overwriteAll) (fun _ => false)
    [{ pConf with action := "update" }] (by decide) (by rfl)
    { pConf with action := "update" } (by simp) rfl

theorem isPrefixOf_self {α : Type} [BEq α] [LawfulBEq α] (l : List α) :
    l.isPrefixOf l = true := by
  induction l with
  | nil => rfl
  | cons a t ih => simp [List.isPrefixOf, ih]

/-- C6: when conflicts exist and force is off, a Quit answer or a dismissed
aggregate prompt makes resolution exit with status 0, and the whole
resolve-then-execute run aborts with exit status 0 and the filesystem
untouched — no plan list is ever produced. -/
theorem c6_quit_aborts_cleanly (plans : List FilePlan) (ans : Nat → Bool)
    (backup_base : FPath) (fs : FS) (choice : Option Choice)
    (hconf : (plans.filter (fun p => p.conflict)).isEmpty = false)
    (hq : choice = none ∨ choice = some Choice.quit) :
    resolve_conflicts plans false choice ans = .error 0
    ∧ runCommand plans false choice ans backup_base fs = .error (0, fs) := by
  have h1 : resolve_conflicts plans false choice ans = .error 0 := by
    unfold resolve_conflicts
    rw [if_neg (by simp [hconf])]
    rw [if_neg (by simp)]
    rcases hq with rfl | rfl <;> rfl
  refine ⟨h1, ?_⟩
  unfold runCommand
  rw [h1]

/-- Witness for C6: one concrete conflicting plan, prompt dismissed. -/
theorem c6_witness :
    resolve_conflicts [pConf] false none (fun _ => false) = .error 0
    ∧ runCommand [pConf] false none (fun _ => false) ["bk"] fs0
        = .error (0, fs0) :=
  c6_quit_aborts_cleanly [pConf] (fun _ => false) ["bk"] fs0 none
    (by decide) (Or.inl rfl)

theorem execOne_noop (backup_base : FPath) (acc : FS × Nat × Nat × Nat)
    (p : FilePlan) (ha : p.always_update = false) (h1 : p.action ≠ "install")
    (h2 : p.action ≠ "update") (h3 : p.action ≠ "skip") :
    execOne backup_base acc p = acc := by
  obtain ⟨fs, ins, upd, skp⟩ := acc
  simp [execOne, ha, h1, h2, h3]

/-- C10: a plan that is neither always_update nor carries one of the three
final actions is executed as a complete no-op — removing it from the list
changes neither the filesystem nor any of the three counters. -/
theorem c10_undecided_plan_is_silently_omitted (p : FilePlan)
    (l1 l2 : List FilePlan) (backup_base : FPath) (fs : FS)
    (ha : p.always_update = false) (h1 : p.action ≠ "install")
    (h2 : p.action ≠ "update") (h3 : p.action ≠ "skip") :
    execute_plans (l1 ++ p :: l2) backup_base fs
      = execute_plans (l1 ++ l2) backup_base fs := by
  unfold execute_plans
  rw [List.foldl_append, List.foldl_append, List.foldl_cons,
    execOne_noop backup_base _ p ha h1 h2 h3]

/-- Witness for C10: executing a single still-pending plan does nothing. -/
theorem c10_witness :
    execute_plans ([] ++ pConf :: []) ["bk"] fsW = execute_plans ([] ++ []) ["bk"] fsW :=
  c10_undecided_plan_is_silently_omitted pConf [] [] ["bk"] fsW
    (by decide) (by decide) (by decide) (by decide)

/-- C5: an always_update plan is executed unconditionally whatever its
conflict flag or action says: the destination ends up with the source
content and metadata except that its mode is set to 0o755 (whose
owner-execute bit, bit 6, is set), nothing but the destination is written
(in particular no backup), and the plan is counted as updated. -/
theorem c5_always_update_unconditional (p : FilePlan) (backup_base : FPath)
    (fs : FS) (s : FileRec)
    (h : p.always_update = true) (hs : fs.files p.src = some s) :
    (execute_plans [p] backup_base fs).1.files p.dest
        = some { s with mode := 0o755 }
    ∧ Nat.testBit ({ s with mode := 0o755 } : FileRec).mode 6 = true
    ∧ (∀ q, q ≠ p.dest →
        (execute_plans [p] backup_base fs).1.files q = fs.files q)
    ∧ (execute_plans [p] backup_base fs).2 = (0, 1, 0) := by
  refine ⟨?_, show Nat.testBit 0o755 6 = true by decide, ?_, ?_⟩
  · simp [execute_plans, execOne, h, FS.chmod, FS.copy2, FS.mkdirParents, hs]
  · intro q hqne
    simp [execute_plans, execOne, h, FS.chmod, FS.copy2, FS.mkdirParents, hqne]
  · simp [execute_plans, execOne, h]

/-- Witness for C5 on a concrete always_update plan and filesystem. -/
theorem c5_witness :
    (execute_plans [{ pSelf with src := ["tk", "f.md"] }] ["bk"] fsW).1.files
        ["home", "bin", "claude-init"] = some { sRec with mode := 0o755 }
    ∧ Nat.testBit ({ sRec with mode := 0o755 } : FileRec).mode 6 = true
    ∧ (∀ q, q ≠ ["home", "bin", "claude-init"] →
        (execute_plans [{ pSelf with src := ["tk", "f.md"] }] ["bk"] fsW).1.files q
          = fsW.files q)
    ∧ (execute_plans [{ pSelf with src := ["tk", "f.md"] }] ["bk"] fsW).2
        = (0, 1, 0) :=
  c5_always_update_unconditional { pSelf with src := ["tk", "f.md"] } ["bk"]
    fsW sRec (by decide) (by decide)

/-- C1: executing a non-always plan resolved to update first copies the
existing destination (content and metadata) into backup_root under the
destination file name — creating backup_root — and then overwrites the
destination with the source: afterwards the backup path holds exactly the
pre-execution destination record and the destination holds exactly the
source record. -/
theorem c1_update_backs_up_before_overwrite (p : FilePlan)
    (backup_base : FPath) (fs : FS) (s d : FileRec)
    (ha : p.always_update = false) (hact : p.action = "update")
    (hs : fs.files p.src = some s) (hd : fs.files p.dest = some d)
    (hne : p.dest ≠ backup_base ++ [pathName p.dest])
    (hsrc : p.src ≠ backup_base ++ [pathName p.dest]) :
    (execute_plans [p] backup_base fs).1.files
        (backup_base ++ [pathName p.dest]) = some d
    ∧ (execute_plans [p] backup_base fs).1.files p.dest = some s
    ∧ (execute_plans [p] backup_base fs).1.dirs backup_base = true := by
  refine ⟨?_, ?_, ?_⟩
  · simp [execute_plans, execOne, ha, hact, backup_and_copy, FS.copy2,
      FS.mkdirParents, hd, Ne.symm hne]
  · simp [execute_plans, execOne, ha, hact, backup_and_copy, FS.copy2,
      FS.mkdirParents, hs, hsrc]
  · simp [execute_plans, execOne, ha, hact, backup_and_copy, FS.copy2,
      FS.mkdirParents, isPrefixOf_self]

/-- Witness for C1 on a concrete update plan: the backup holds the old
destination record and the destination holds the source record. -/
theorem c1_witness :
    (execute_plans [pUpd] ["bk"] fsW).1.files
        (["bk"] ++ [pathName pUpd.dest]) = some dRec
    ∧ (execute_plans [pUpd] ["bk"] fsW).1.files pUpd.dest = some sRec
    ∧ (execute_plans [pUpd] ["bk"] fsW).1.dirs ["bk"] = true :=
  c1_update_backs_up_before_overwrite pUpd ["bk"] fsW sRec dRec
    (by decide) (by decide) (by decide) (by decide) (by decide) (by decide)

theorem isPrefixOf_iff {α : Type} [BEq α] [LawfulBEq α] :
    ∀ (l1 l2 : List α), l1.isPrefixOf l2 = true ↔ ∃ r, l1 ++ r = l2 := by
  intro l1
  induction l1 with
  | nil => intro l2; simp [List.isPrefixOf]
  | cons a t1 ih =>
    intro l2
    cases l2 with
    | nil => simp [List.isPrefixOf]
    | cons b t2 =>
      simp only [List.isPrefixOf, Bool.and_eq_true, beq_iff_eq, ih t2,
        List.cons_append, List.cons.injEq]
      constructor
      · rintro ⟨rfl, r, rfl⟩; exact ⟨r, rfl, rfl⟩
      · rintro ⟨r, rfl, rfl⟩; exact ⟨rfl, r, rfl⟩

theorem strContains_append_right (pat b : List Char)
    (h : strContains pat b = true) :
    ∀ (a : List Char), strContains pat (a ++ b) = true := by
  intro a
  induction a with
  | nil => simpa using h
  | cons c a2 ih => simp [strContains, ih]

theorem strContains_of_isPrefixOf (pat s : List Char)
    (h : pat.isPrefixOf s = true) : strContains pat s = true := by
  cases s with
  | nil =>
    cases pat with
    | nil => rfl
    | cons a t => exact Bool.noConfusion h
  | cons c t => simp [strContains, h]

theorem strContains_of_mid (pat : List Char) :
    ∀ (r t s : List Char), r ++ t = s → pat.isPrefixOf t = true →
      strContains pat s = true := by
  intro r
  induction r with
  | nil => intro t s hts hp; subst hts; exact strContains_of_isPrefixOf pat t hp
  | cons x r2 ih =>
    intro t s hts hp
    subst hts
    simp only [List.cons_append, strContains, List.append_eq]
    rw [ih t (r2 ++ t) rfl hp]
    simp

theorem countOccs_append_of_no_cross (pat b : List Char) :
    ∀ (a : List Char),
      (∀ t r, t ≠ [] → r ++ t = a → pat.isPrefixOf (t ++ b) = false) →
      countOccs pat (a ++ b) = countOccs pat b := by
  intro a
  induction a with
  | nil => intro _; rfl
  | cons c a2 ih =>
    intro h
    have h0 : pat.isPrefixOf ((c :: a2) ++ b) = false :=
      h (c :: a2) [] (by simp) rfl
    simp only [List.cons_append] at h0 ⊢
    rw [show countOccs pat (c :: (a2 ++ b))
        = (if pat.isPrefixOf (c :: (a2 ++ b)) then 1 else 0)
          + countOccs pat (a2 ++ b) from rfl]
    rw [h0]
    simp only [Bool.false_eq_true, if_false, Nat.zero_add]
    exact ih (fun t r ht hrt => h t (c :: r) ht (by rw [← hrt]; rfl))

theorem countOccs_eq_zero_of_not_contains (pat : List Char) :
    ∀ (s : List Char), strContains pat s = false → countOccs pat s = 0 := by
  intro s
  induction s with
  | nil =>
    intro h
    simp only [strContains] at h
    simp [countOccs, h]
  | cons c t ih =>
    intro h
    simp only [strContains, Bool.or_eq_false_iff] at h
    simp [countOccs, h.1, ih h.2]

theorem newline_not_mem_giEntry : ¬ ('\n' ∈ giEntry) := by decide

/-- No occurrence of the guard entry can start inside the old content and
cross into the appended text, because the appended text in that position
would put a newline inside the entry, and the entry holds none. -/
theorem giEntry_no_cross (old : List Char)
    (hno : strContains giEntry old = false) :
    ∀ t r, t ≠ [] → r ++ t = old →
      giEntry.isPrefixOf (t ++ ('\n' :: giAppendText)) = false := by
  intro t r ht hrt
  by_contra hcon
  have hpre : giEntry.isPrefixOf (t ++ ('\n' :: giAppendText)) = true := by
    revert hcon
    cases giEntry.isPrefixOf (t ++ ('\n' :: giAppendText)) <;> simp
  rw [isPrefixOf_iff] at hpre
  obtain ⟨u, hu⟩ := hpre
  rcases List.append_eq_append_iff.mp hu with ⟨a2, ha2, _⟩ | ⟨c2, hc2, hd2⟩
  · have : strContains giEntry old = true :=
      strContains_of_mid giEntry r t old hrt
        ((isPrefixOf_iff giEntry t).mpr ⟨a2, ha2.symm⟩)
    rw [this] at hno
    exact Bool.noConfusion hno
  · cases c2 with
    | nil =>
      have hteq : giEntry = t := by simpa using hc2
      have : strContains giEntry old = true :=
        strContains_of_mid giEntry r t old hrt
          (hteq ▸ isPrefixOf_self giEntry)
      rw [this] at hno
      exact Bool.noConfusion hno
    | cons x c3 =>
      have hx : x = '\n' := by
        simp only [List.cons_append, List.cons.injEq] at hd2
        exact hd2.1.symm
      have hmem : '\n' ∈ giEntry := by
        rw [hc2, hx]
        simp
      exact newline_not_mem_giEntry hmem

/-- C8: the .gitignore guard append is idempotent: when the entry is already
contained the file is returned byte-identical; when it is absent the append
adds exactly one occurrence of the entry (the old text held zero), preceded
by a newline exactly when the old text was non-empty; and running the step
twice equals running it once. -/
theorem c8_gitignore_append_idempotent (gi : Option (List Char)) :
    (giHasEntry gi = true → gitignoreAppendEntry gi = gi)
    ∧ (giHasEntry gi = false →
        gitignoreAppendEntry gi = some (gitignoreAppendRaw gi)
        ∧ countOccs giEntry (gitignoreAppendRaw gi) = 1
        ∧ countOccs giEntry (gi.getD []) = 0
        ∧ gitignoreAppendRaw gi
            = (gi.getD []) ++ (if (gi.getD []).length > 0 then ['\n'] else [])
              ++ giAppendText)
    ∧ gitignoreAppendEntry (gitignoreAppendEntry gi) = gitignoreAppendEntry gi := by
  have htext1 : countOccs giEntry giAppendText = 1 := by decide
  have htextNl : countOccs giEntry ('\n' :: giAppendText) = 1 := by decide
  have htextC : strContains giEntry giAppendText = true := by decide
  refine ⟨?_, ?_, ?_⟩
  · intro h
    unfold gitignoreAppendEntry
    rw [if_pos h]
  · intro h
    have hstr : strContains giEntry (gi.getD []) = false := by
      cases gi with
      | none => decide
      | some t => simpa [giHasEntry] using h
    refine ⟨by unfold gitignoreAppendEntry; rw [if_neg (by simp [h])], ?_,
      countOccs_eq_zero_of_not_contains giEntry _ hstr, rfl⟩
    unfold gitignoreAppendRaw
    by_cases ho : (gi.getD []) = []
    · simp [ho, htext1]
    · have hlen : (gi.getD []).length > 0 := by
        cases hg : gi.getD [] with
        | nil => exact absurd hg ho
        | cons c t => simp
      rw [if_pos hlen, List.append_assoc]
      rw [show ((['\n'] : List Char) ++ giAppendText) = '\n' :: giAppendText
        from rfl]
      rw [countOccs_append_of_no_cross giEntry ('\n' :: giAppendText)
        (gi.getD []) (giEntry_no_cross (gi.getD []) hstr)]
      exact htextNl
  · by_cases hh : giHasEntry gi = true
    · have h1 : gitignoreAppendEntry gi = gi := by
        unfold gitignoreAppendEntry; rw [if_pos hh]
      rw [h1]
      exact h1
    · have h1 : gitignoreAppendEntry gi = some (gitignoreAppendRaw gi) := by
        unfold gitignoreAppendEntry; rw [if_neg hh]
      have hcontains : giHasEntry (some (gitignoreAppendRaw gi)) = true := by
        simp only [giHasEntry]
        unfold gitignoreAppendRaw
        rw [List.append_assoc]
        exact strContains_append_right giEntry _
          (strContains_append_right giEntry giAppendText htextC _) _
      have h2 : gitignoreAppendEntry (some (gitignoreAppendRaw gi))
          = some (gitignoreAppendRaw gi) := by
        unfold gitignoreAppendEntry; rw [if_pos hcontains]
      rw [h1, h2]

/-- Witness for C8: appending to a concrete .gitignore lacking the entry,
then appending again, changes nothing the second time; the first append
leaves exactly one occurrence of the entry. -/
theorem c8_witness :
    gitignoreAppendEntry (some ("node_modules\n".toList))
      = some (gitignoreAppendRaw (some ("node_modules\n".toList)))
    ∧ countOccs giEntry (gitignoreAppendRaw (some ("node_modules\n".toList))) = 1
    ∧ gitignoreAppendEntry (gitignoreAppendEntry (some ("node_modules\n".toList)))
      = gitignoreAppendEntry (some ("node_modules\n".toList)) :=
  ⟨((c8_gitignore_append_idempotent (some ("node_modules\n".toList))).2.1
      (by decide)).1,
   ((c8_gitignore_append_idempotent (some ("node_modules\n".toList))).2.1
      (by decide)).2.1,
   (c8_gitignore_append_idempotent (some ("node_modules\n".toList))).2.2⟩

theorem execOne_counts (backup_base : FPath) (fs : FS) (ins upd skp : Nat)
    (p : FilePlan)
    (h : p.always_update = true ∨ p.action = "install" ∨ p.action = "update"
      ∨ p.action = "skip") :
    (execOne backup_base (fs, ins, upd, skp) p).2.1
      + (execOne backup_base (fs, ins, upd, skp) p).2.2.1
      + (execOne backup_base (fs, ins, upd, skp) p).2.2.2
    = ins + upd + skp + 1 := by
  by_cases haw : p.always_update
  · simp [execOne, haw]; omega
  · rcases h with h | h | h | h
    · exact absurd h haw
    · simp [execOne, haw, h]; omega
    · simp [execOne, haw, h]; omega
    · simp [execOne, haw, h]; omega

theorem execute_sum (backup_base : FPath) :
    ∀ (plans : List FilePlan), resolvedPlans plans →
    ∀ (fs : FS) (ins upd skp : Nat),
      (plans.foldl (execOne backup_base) (fs, ins, upd, skp)).2.1
        + (plans.foldl (execOne backup_base) (fs, ins, upd, skp)).2.2.1
        + (plans.foldl (execOne backup_base) (fs, ins, upd, skp)).2.2.2
      = ins + upd + skp + plans.length := by
  intro plans
  induction plans with
  | nil => intro _ fs ins upd skp; simp
  | cons p rest ih =>
    intro hres fs ins upd skp
    have hrest : resolvedPlans rest := fun q hq hq2 => hres q (by simp [hq]) hq2
    have hp : p.always_update = true ∨ p.action = "install"
        ∨ p.action = "update" ∨ p.action = "skip" := by
      by_cases haw : p.always_update
      · exact Or.inl haw
      · exact Or.inr (hres p (by simp) (by simpa using haw))
    rcases hacc : execOne backup_base (fs, ins, upd, skp) p with ⟨fs1, i1, u1, s1⟩
    have hsum := execOne_counts backup_base fs ins upd skp p hp
    rw [hacc] at hsum
    simp only [List.foldl_cons, hacc]
    rw [ih hrest fs1 i1 u1 s1]
    simp only [List.length_cons]
    simp at hsum
    omega

theorem numNonAlways_add_numAlways (plans : List FilePlan) :
    numNonAlways plans + numAlways plans = plans.length := by
  induction plans with
  | nil => rfl
  | cons p rest ih =>
    by_cases h : p.always_update <;>
      simp [numNonAlways, numAlways, List.filter, h] at * <;> omega

/-- C3 counterexample: a resolved list holding only the always_update
self-install plan has N = 0 plans outside always_apply, yet execute returns
counts summing to 1 (the plan is counted as updated), so
installed + updated + skipped = N fails. -/
theorem c3_counterexample :
    resolvedPlans [pSelf]
    ∧ ¬ ((execute_plans [pSelf] ["bk"] fs0).2.1
        + (execute_plans [pSelf] ["bk"] fs0).2.2.1
        + (execute_plans [pSelf] ["bk"] fs0).2.2.2
      = numNonAlways [pSelf]) := by
  constructor
  · decide
  · intro hcontra
    have h1 : (execute_plans [pSelf] ["bk"] fs0).2.1
        + (execute_plans [pSelf] ["bk"] fs0).2.2.1
        + (execute_plans [pSelf] ["bk"] fs0).2.2.2 = 1 := by
      simp [execute_plans, execOne, pSelf]
    have h2 : numNonAlways [pSelf] = 0 := by decide
    rw [h1, h2] at hcontra
    exact one_ne_zero hcontra

/-- C3 (amended): for a resolved plan list the returned counts satisfy
installed + updated + skipped = N + A, where N is the number of plans
excluding always_update entries and A the number of always_update entries
(each counted as updated by execute). -/
theorem c3_amended_count_conservation (plans : List FilePlan)
    (backup_base : FPath) (fs : FS) (h : resolvedPlans plans) :
    (execute_plans plans backup_base fs).2.1
      + (execute_plans plans backup_base fs).2.2.1
      + (execute_plans plans backup_base fs).2.2.2
    = numNonAlways plans + numAlways plans := by
  unfold execute_plans
  rw [execute_sum backup_base plans h fs 0 0 0, numNonAlways_add_numAlways]
  omega

/-- Witness for the amended C3 on a concrete resolved three-plan list. -/
theorem c3_witness :
    (execute_plans [pUpd, pSelf] ["bk"] fsW).2.1
      + (execute_plans [pUpd, pSelf] ["bk"] fsW).2.2.1
      + (execute_plans [pUpd, pSelf] ["bk"] fsW).2.2.2
    = numNonAlways [pUpd, pSelf] + numAlways [pUpd, pSelf] :=
  c3_amended_count_conservation [pUpd, pSelf] ["bk"] fsW (by decide)

/-- C9: in the tail of cmd_init_project, when the .gitignore entry is
absent, the summary installed count is the installed count returned by
execute_plans plus one for the appended entry. -/
theorem c9_gitignore_append_bumps_installed (plans : List FilePlan)
    (force : Bool) (choice : Option Choice) (ans : Nat → Bool)
    (backup_base : FPath) (fs : FS) (gi : Option (List Char))
    (plans2 : List FilePlan)
    (hr : resolve_conflicts plans force choice ans = .ok plans2)
    (hgi : giHasEntry gi = false) :
    initProjectFinish plans force choice ans backup_base fs gi
      = .ok ((execute_plans plans2 backup_base fs).1,
             some (gitignoreAppendRaw gi),
             (execute_plans plans2 backup_base fs).2.1 + 1,
             (execute_plans plans2 backup_base fs).2.2.1,
             (execute_plans plans2 backup_base fs).2.2.2) := by
  unfold initProjectFinish
  rw [hr]
  simp [hgi]

/-- Witness for C9: concrete no-conflict resolution with an absent
.gitignore; the summary installed count is execute's plus one. -/
theorem c9_witness :
    initProjectFinish [pNew] false none (fun _ => false) ["bk"] fsW none
      = .ok ((execute_plans [{ pNew with action := "install" }] ["bk"] fsW).1,
             some (gitignoreAppendRaw none),
             (execute_plans [{ pNew with action := "install" }] ["bk"] fsW).2.1 + 1,
             (execute_plans [{ pNew with action := "install" }] ["bk"] fsW).2.2.1,
             (execute_plans [{ pNew with action := "install" }] ["bk"] fsW).2.2.2) :=
  c9_gitignore_append_bumps_installed [pNew] false none (fun _ => false)
    ["bk"] fsW none [{ pNew with action := "install" }] (by rfl) (by rfl)

/-- Witness for C4 at a concrete two-plan list: the forced resolution is the
mapped list, and the pending conflicting plan is mapped to update. -/
theorem c4_force_witness :
    resolve_conflicts [pConf, pNew] true none (fun _ => false)
      = .ok ([pConf, pNew].map forceMap)
    ∧ (forceMap pConf).action = "update" :=
  ⟨(c4_force_deterministic_idempotent [pConf, pNew] none none
      (fun _ => false) (fun _ => false)).1,
   ((c4_force_deterministic_idempotent [pConf, pNew] none none
      (fun _ => false) (fun _ => false)).2.2 pConf (by simp) rfl).1 rfl⟩
